import Mathlib

/-!
Shallow embedding of `bomsort.py` (PontusO/bomsort): the BOM-ingestion stage,
the Aggregator (`create_component_list`), the Splitter (the `adders` loop in
`main`), the Distributor (the `l1_ptrn` table and the feeder-number loop), and
the Optimizer (`optimize_part_list` and the `while` loop that drives it).

Python lists of BOM fields are modelled as structures; the in-place mutation of
the feeder list is modelled by explicit state passing; Python `IndexError`
(out-of-range list access) is modelled by `Option`, with `none` standing for a
raised exception.
-/

namespace Bomsort

/-- One line of the main BOM `v` built by ingestion: indices `BOM_DES`, `BOM_X`,
`BOM_Y`, `BOM_A`, `BOM_CMB` of the Python list. -/
structure BomEntry where
  des : String
  x : String
  y : String
  a : String
  cmb : String
deriving DecidableEq, Repr

/-- One entry of the counted-parts list built by `create_component_list`: a
`BomEntry` with the appended quantity field `PART_QTY`. -/
structure Part where
  des : String
  x : String
  y : String
  a : String
  cmb : String
  qty : Nat
deriving DecidableEq, Repr

/-- One entry of the feeder list `fl`: a counted part with the appended feeder
number field `PART_FDR`. -/
structure FeederEntry where
  part : Part
  fdr : Nat
deriving DecidableEq, Repr

/-! ### Ingestion (the file-reading loop of `main`, lines 148-179) -/

/-- `line.replace(",", ".")`: every comma becomes a decimal point. -/
def deComma (s : List Char) : List Char :=
  s.map (fun c => if c = ',' then '.' else c)

/-- Python `str.split()` whitespace classification (the characters relevant to
BOM lines). -/
def isWs (c : Char) : Bool :=
  c = ' ' || c = '\t' || c = '\n' || c = '\r'

/-- Python `str.split()` with no separator: split on runs of whitespace and
drop empty tokens.  The accumulator holds the current token reversed. -/
def splitWs : List Char → List Char → List (List Char)
  | [], acc => if acc.isEmpty then [] else [acc.reverse]
  | c :: rest, acc =>
    if isWs c then
      if acc.isEmpty then splitWs rest [] else acc.reverse :: splitWs rest []
    else splitWs rest (c :: acc)

/-- `noComma.strip().split()` applied to one BOM line. -/
def lineTokens (line : String) : List String :=
  (splitWs (deComma line.data) []).map (fun t => ⟨t⟩)

/-- `line.startswith("TP") or line.startswith("FID")`: test points and
fiducials are filtered out. -/
def isFiltered (line : String) : Bool :=
  match line.data with
  | 'T' :: 'P' :: _ => true
  | 'F' :: 'I' :: 'D' :: _ => true
  | _ => false

/-- The per-line body of the ingestion loop: reads tokens `ml[0]`..`ml[5]` and
builds the internal BOM entry with the combined `value|package` field.
`none` models the `IndexError` raised when the line has fewer than six
tokens. -/
def parseLine (line : String) : Option BomEntry :=
  let ml := lineTokens line
  match ml[0]?, ml[1]?, ml[2]?, ml[3]?, ml[4]?, ml[5]? with
  | some d, some x0, some y0, some a0, some v0, some p0 =>
      some ⟨d, x0, y0, a0, v0 ++ "|" ++ p0⟩
  | _, _, _, _, _, _ => none

/-- The whole ingestion loop over the lines of the input file.  The `try`
block catches the first exception: entries appended before the failing line
are kept, the rest of the file is skipped, the error is printed, and execution
continues.  The returned flag records whether an exception was caught. -/
def parse_bom : List String → List BomEntry × Bool
  | [] => ([], false)
  | line :: rest =>
    if isFiltered line then parse_bom rest
    else
      match parseLine line with
      | some e =>
        let r := parse_bom rest
        (e :: r.1, r.2)
      | none => ([], true)

/-! ### Aggregator (`create_component_list`, lines 43-66) -/

/-- The inner loop of `create_component_list` once a matching counted part is
known to exist: increment the quantity of the first entry whose combined field
equals `k` (the loop `break`s after the first match). -/
def bumpQty (k : String) : List Part → List Part
  | [] => []
  | c :: rest =>
    if c.cmb = k then ⟨c.des, c.x, c.y, c.a, c.cmb, c.qty + 1⟩ :: rest
    else c :: bumpQty k rest

/-- One iteration of the outer loop of `create_component_list`: either bump the
existing counted part or append a fresh copy with quantity 1. -/
def addPart (acc : List Part) (e : BomEntry) : List Part :=
  if acc.any (fun c => c.cmb == e.cmb) then bumpQty e.cmb acc
  else acc ++ [⟨e.des, e.x, e.y, e.a, e.cmb, 1⟩]

/-- `create_component_list(bomlist)`: collapse the BOM into counted parts, in
first-occurrence order of each distinct combined field. -/
def create_component_list (bomlist : List BomEntry) : List Part :=
  bomlist.foldl addPart []

/-! ### Splitter (the `adders` loop of `main`, lines 278-288) -/

/-- The body of the `adders` loop for one part.  The Python guard
`cmp[PART_QTY] > cnt / 2` uses real division, which for naturals is exactly
`cnt < 2 * qty`; `int(cmp[PART_QTY] / 2)` is floor division.  The first
component is the (possibly mutated) original entry, the second the entry
appended to `adders`, if any. -/
def splitPart (cnt : Nat) (p : Part) : Part × Option Part :=
  if cnt < 2 * p.qty then
    (⟨p.des, p.x, p.y, p.a, p.cmb, p.qty / 2⟩,
     some ⟨p.des, p.x, p.y, p.a, p.cmb, p.qty - p.qty / 2⟩)
  else (p, none)

/-- The whole Splitter stage: the loop runs over the full counted list `col`,
mutating over-represented entries in place, and then the collected `adders`
are appended at the end. -/
def splitter (cnt : Nat) (col : List Part) : List Part :=
  col.map (fun p => (splitPart cnt p).1) ++ col.filterMap (fun p => (splitPart cnt p).2)

/-! ### Distributor (lines 247-299) -/

/-- The feeder distribution table of `main`: item `i` of the reverse-sorted
parts list goes to feeder position `l1_ptrn[i]`. -/
def l1_ptrn : List Nat :=
  [19, 18, 20, 17, 21, 16, 22, 15, 23, 14, 24, 13, 25, 12, 26, 11, 27, 10,
   28, 9, 29, 8, 30, 7, 31, 6, 32, 5, 33, 4, 34, 3, 35, 2, 36, 1, 37, 0]

/-- `cnt = min(len(col), len(l1_ptrn))` as computed by the `if` in `main`. -/
def feederCnt (col : List Part) : Nat :=
  if l1_ptrn.length < col.length then l1_ptrn.length else col.length

/-- Stable insertion used to model Python's stable
`sorted(col, key=itemgetter(PART_QTY), reverse=True)`: an element moves past
entries of strictly larger quantity and lands before the first entry of equal
or smaller quantity. -/
def insertDescQty (p : Part) : List Part → List Part
  | [] => [p]
  | q :: rest => if p.qty < q.qty then q :: insertDescQty p rest else p :: q :: rest

/-- `sorted(col, key=itemgetter(PART_QTY), reverse=True)`: stable descending
sort by quantity. -/
def sortDescQty (l : List Part) : List Part :=
  l.foldr insertDescQty []

/-- Stable insertion used to model `sorted(fl, key=itemgetter(PART_FDR))`. -/
def insertAscFdr (e : FeederEntry) : List FeederEntry → List FeederEntry
  | [] => [e]
  | q :: rest => if q.fdr < e.fdr then q :: insertAscFdr e rest else e :: q :: rest

/-- `sorted(fl, key=itemgetter(PART_FDR))`: stable ascending sort by feeder
number. -/
def sortAscFdr (l : List FeederEntry) : List FeederEntry :=
  l.foldr insertAscFdr []

/-- The distribution loop `for i in range(cnt): cl[i].append(l1_ptrn[i])`:
the `i`-th ranked entry receives feeder number `l1_ptrn[i]` and joins `fl`.
`none` models the `IndexError` raised when `cnt` exceeds either list. -/
def distribute (cl : List Part) (cnt : Nat) : Option (List FeederEntry) :=
  if cnt ≤ cl.length ∧ cnt ≤ l1_ptrn.length then
    some (List.zipWith (fun p s => (⟨p, s⟩ : FeederEntry)) (cl.take cnt) (l1_ptrn.take cnt))
  else none

/-! ### Optimizer (`optimize_part_list`, lines 76-99, and the `while` loop) -/

/-- The three-statement swap idiom `tmp = bomlist[a]; bomlist[a] = bomlist[b];
bomlist[b] = tmp`.  `none` models the `IndexError` raised when either index is
out of range. -/
def swapIdx (l : List FeederEntry) (a b : Nat) : Option (List FeederEntry) :=
  match l[a]?, l[b]? with
  | some x, some y => some ((l.set a y).set b x)
  | _, _ => none

/-- One iteration of the `for i in range(cnt-1)` loop of `optimize_part_list`:
compare the combined fields at `i` and `i+1` and, on a collision, apply the
positional swap rule (lower half swaps `[i-1]` and `[i]`, except `[i+1]` and
`[i+2]` at `i == 0`; upper half swaps `[i+1]` and `[i+2]`, except `[i-1]` and
`[i]` at `i == 36`), setting the `updated` flag. -/
def optStep (st : List FeederEntry × Bool) (i : Nat) : Option (List FeederEntry × Bool) :=
  match st.1[i]?, st.1[i+1]? with
  | some a, some b =>
    if a.part.cmb = b.part.cmb then
      (if i ≤ 17 then
        if i = 0 then swapIdx st.1 (i+1) (i+2) else swapIdx st.1 (i-1) i
      else
        if i = 36 then swapIdx st.1 (i-1) i else swapIdx st.1 (i+1) (i+2)).map
        (fun l2 => (l2, true))
    else some st
  | _, _ => none

/-- The `for` loop of `optimize_part_list` over a list of index values,
threading the feeder list and the `updated` flag; an exception aborts the
whole call. -/
def optPass (st : List FeederEntry × Bool) : List Nat → Option (List FeederEntry × Bool)
  | [] => some st
  | i :: rest =>
    match optStep st i with
    | some st2 => optPass st2 rest
    | none => none

/-- `optimize_part_list(bomlist, cnt)`: one full pass over indices
`0 .. cnt-2`, returning the final list and whether any change was made. -/
def optimize_part_list (bomlist : List FeederEntry) (cnt : Nat) :
    Option (List FeederEntry × Bool) :=
  optPass (bomlist, false) (List.range (cnt - 1))

/-- The driver loop `while optimize_part_list(fls, cnt)` of `main`, run with an
explicit fuel so that it is a total function: `some (some l)` means the loop
exited after a pass with no change, `some none` means the fuel was exhausted
with the loop still reporting changes, `none` models an exception inside a
pass. -/
def whileOpt : Nat → List FeederEntry → Nat → Option (Option (List FeederEntry))
  | 0, _, _ => some none
  | fuel + 1, l, cnt =>
    match optimize_part_list l cnt with
    | none => none
    | some (l2, false) => some (some l2)
    | some (l2, true) => whileOpt fuel l2 cnt

/-- The whole feeder-list branch of `main` (lines 224-311) from the ingested
BOM `v` to the final optimized feeder list `fls` whose rows are written to the
CSV file: aggregate, split, rank, distribute, sort by feeder number, then
optimize to a fixpoint (with the given fuel). -/
def run_feeder (fuel : Nat) (v : List BomEntry) : Option (List FeederEntry) :=
  let col := create_component_list v
  let cnt := feederCnt col
  let cl := sortDescQty (splitter cnt col)
  match distribute cl cnt with
  | none => none
  | some fl =>
    match whileOpt fuel (sortAscFdr fl) cnt with
    | some (some fls) => some fls
    | _ => none

/-! ### Definitions taken from the specification's words (for comparison) -/

/-- Modelled from the spec (§4.3): the capacity-selected candidate set, the
top `cnt` parts of the aggregated list ranked descending by quantity with
stable ties.  The code has no such intermediate value; the claim that the
Splitter acts only on these candidates is checked against it. -/
def specCandidates (col : List Part) (cnt : Nat) : List Part :=
  (sortDescQty col).take cnt

/-- Modelled from the spec (§4.3 step 5): the fixed 38-element center-out
pattern, position 19 first, then alternating 18, 20, 17, 21, … out to 0 and
37. -/
def centerOutPattern : List Nat :=
  (List.range 38).map (fun i => if i % 2 = 1 then 19 - (i + 1) / 2 else 19 + i / 2)

/-- One step of collecting keys in first-occurrence order. -/
def stepKey (ks : List String) (k : String) : List String :=
  if k ∈ ks then ks else ks ++ [k]

/-- The distinct combined keys of a BOM in first-occurrence order, used to
state the aggregation claim. -/
def firstOccurrences (keys : List String) : List String :=
  keys.foldl stepKey []

/-- Total quantity held by a counted-parts list. -/
def sumQty (l : List Part) : Nat :=
  (l.map Part.qty).sum

/-- Absence of an adjacent same-type collision at position `i` of a feeder
list. -/
def noAdjPair (l : List FeederEntry) (i : Nat) : Prop :=
  ∀ a b, l[i]? = some a → l[i+1]? = some b → a.part.cmb ≠ b.part.cmb

/-- The condition under which the swap chosen at a collision at index `i`
touches only positions below `cnt`: the `i == 0` special case reaches `i + 2`,
and so does the upper-half normal case (`17 < i`, `i ≠ 36`); every other
branch stays at or below `i + 1`. -/
def stepInBounds (cnt i : Nat) : Prop :=
  (i ≤ 17 → i = 0 → i + 2 < cnt) ∧ (17 < i → i ≠ 36 → i + 2 < cnt)

/-! ### Concrete inputs used by counterexamples and witnesses -/

/-- A BOM with one part type of quantity 4 and two of quantity 1: the split of
the dominant type lands on adjacent feeders, so the optimizer performs a
swap. -/
def bomLinesC5 : List String :=
  ["R1 10 10 0 10k 0603", "R2 11 10 0 10k 0603", "R3 12 10 0 10k 0603",
   "R4 13 10 0 10k 0603", "C1 5 5 0 100n 0603", "D1 1 2 90 LED 0603"]

/-- A feeder entry; three copies of it form a list on which every optimizer
pass reports a change while leaving the list unchanged. -/
def exSame : FeederEntry := ⟨⟨"R1", "0", "0", "0", "10k|0603", 1⟩, 19⟩

/-- Three identical entries: the optimizer's swaps are all identities here. -/
def exC3 : List FeederEntry := [exSame, exSame, exSame]

/-- A second entry with the same combined field, on feeder 18. -/
def exSame2 : FeederEntry := ⟨⟨"R2", "0", "0", "0", "10k|0603", 1⟩, 18⟩

/-- Two adjacent entries of the same type with `cnt = 2`: the collision at
`i = 0` makes the swap read `bomlist[2]`, which is out of range. -/
def exOob2 : List FeederEntry := [exSame, exSame2]

/-- A counted part with quantity 1: with `cnt = 1` the Splitter halves it into
quantities 0 and 1. -/
def pOne : Part := ⟨"R1", "0", "0", "0", "10k|0603", 1⟩

/-- The `i`-th of 39 distinct part types, all of quantity 20. -/
def mkP (i : Nat) : Part := ⟨"D" ++ toString i, "0", "0", "0", "k" ++ toString i, 20⟩

/-- 39 distinct aggregated parts of quantity 20 each: with `cnt = 38` the last
one is outside the top-`cnt` candidates yet exceeds `cnt / 2`. -/
def colC1 : List Part := (List.range 39).map mkP

/-- Two entries of distinct types: a pass over them reports no change. -/
def exDistinct : List FeederEntry :=
  [⟨⟨"C1", "5", "5", "0", "100n|0603", 2⟩, 18⟩, exSame]

/-- A well-formed BOM line. -/
def goodLine : String := "R1 0 0 0 10k 0603"

/-- A malformed BOM line (fewer than six tokens). -/
def badLine : String := "oops"

/-- A three-line BOM with one repeated type, used by the aggregation
witness. -/
def bomW7 : List BomEntry :=
  [⟨"R1", "0", "0", "0", "10k|0603"⟩, ⟨"C1", "1", "1", "0", "100n|0603"⟩,
   ⟨"R2", "2", "2", "0", "10k|0603"⟩]

/-- A two-part counted list used by the distribution witness. -/
def clW : List Part :=
  [⟨"R1", "0", "0", "0", "10k|0603", 2⟩, ⟨"C1", "1", "1", "0", "100n|0603", 1⟩]

/-- The feeder list `distribute clW 2` produces. -/
def flW : List FeederEntry :=
  [⟨⟨"R1", "0", "0", "0", "10k|0603", 2⟩, 19⟩, ⟨⟨"C1", "1", "1", "0", "100n|0603", 1⟩, 18⟩]

/-- A counted part of quantity 5 used by the splitter witnesses. -/
def pW1 : Part := ⟨"R1", "0", "0", "0", "10k|0603", 5⟩

/-- A counted part of quantity 1 used by the splitter witnesses. -/
def pW2 : Part := ⟨"C1", "1", "1", "0", "100n|0603", 1⟩

/-- A two-part counted list with distinct keys used by the splitter
witnesses. -/
def colW : List Part := [pW1, pW2]

end Bomsort

/-! ## Theorems -/

namespace Bomsort

/-! ### Generic helper lemmas about the embedded operations -/

theorem map_fdr_zipWith : ∀ (ps : List Part) (ss : List Nat),
    (List.zipWith (fun p s => (⟨p, s⟩ : FeederEntry)) ps ss).map FeederEntry.fdr =
      ss.take ps.length
  | [], ss => by simp
  | p :: ps, [] => by simp
  | p :: ps, s :: ss => by
    simp only [List.zipWith_cons_cons, List.map_cons, List.length_cons, List.take_succ_cons]
    rw [map_fdr_zipWith ps ss]

theorem l1_ptrn_nodup : l1_ptrn.Nodup := by decide

theorem l1_ptrn_lt_38 : ∀ s ∈ l1_ptrn, s < 38 := by decide

/-! ### C8: distribution assigns unique, in-range slots via the center-out
pattern -/

/-- C8: for any ranked list and any `cnt` the distribution accepts, the feeder
numbers of the produced assignments are exactly the first `cnt` entries of
`l1_ptrn` (so the `i`-th ranked entry receives slot `l1_ptrn[i]`), they are
pairwise distinct and all within `[0, 37]`, and `l1_ptrn` is a permutation of
`0..37` equal to the center-out pattern that starts at 19 and alternates
outward. -/
theorem C8_distribution (cl : List Part) (cnt : Nat) (fl : List FeederEntry)
    (h : distribute cl cnt = some fl) :
    fl.map FeederEntry.fdr = l1_ptrn.take cnt ∧
    (fl.map FeederEntry.fdr).Nodup ∧
    (∀ s ∈ fl.map FeederEntry.fdr, s < 38) ∧
    l1_ptrn.Perm (List.range 38) ∧
    l1_ptrn = centerOutPattern := by
  unfold distribute at h
  split at h
  case isFalse => exact absurd h (by simp)
  case isTrue hc =>
    have hfl : fl = List.zipWith (fun p s => (⟨p, s⟩ : FeederEntry))
        (cl.take cnt) (l1_ptrn.take cnt) := by
      injection h with h2
      exact h2.symm
    have hmap : fl.map FeederEntry.fdr = l1_ptrn.take cnt := by
      rw [hfl, map_fdr_zipWith, List.length_take, List.take_take]
      have : min (min cnt cl.length) cnt = cnt := by omega
      rw [this]
    refine ⟨hmap, ?_, ?_, by decide, by decide⟩
    · rw [hmap]
      exact l1_ptrn_nodup.sublist (List.take_sublist cnt l1_ptrn)
    · rw [hmap]
      intro s hs
      exact l1_ptrn_lt_38 s ((List.take_sublist cnt l1_ptrn).subset hs)

/-- Witness for C8 at a concrete two-part list. -/
theorem C8_distribution_witness :
    flW.map FeederEntry.fdr = l1_ptrn.take 2 ∧
    (flW.map FeederEntry.fdr).Nodup ∧
    (∀ s ∈ flW.map FeederEntry.fdr, s < 38) ∧
    l1_ptrn.Perm (List.range 38) ∧
    l1_ptrn = centerOutPattern :=
  C8_distribution clW 2 flW rfl

/-! ### C3: the optimization loop has no iteration bound and can run forever -/

/-- C3 counterexample: on three identical entries with `cnt = 3` a full pass
reports a change while leaving the list unchanged, so the unbounded `while`
loop of `main` never exits on this input. -/
theorem C3_cex : optimize_part_list exC3 3 = some (exC3, true) := rfl

/-- C3 amended: the driver loop has no iteration cap in the code; on the
three-identical-entry list it fails to converge for every finite pass budget,
exhausting any fuel with the pass still reporting changes. -/
theorem C3_amended_nontermination (fuel : Nat) : whileOpt fuel exC3 3 = some none := by
  induction fuel with
  | zero => rfl
  | succ n ih =>
    have h : optimize_part_list exC3 3 = some (exC3, true) := rfl
    simp only [whileOpt, h]
    exact ih

/-! ### C4: index accesses of `optimize_part_list` -/

/-- C4 counterexample: with `cnt = 2` and a collision at `i = 0` the swap
reads `bomlist[i+2] = bomlist[2]`, which is out of range for the two-element
list; the call raises `IndexError` (modelled by `none`). -/
theorem C4_cex : optimize_part_list exOob2 2 = none := rfl

/-! ### C6: quantities produced by a split -/

/-- C6 counterexample: a single part of quantity 1 with `cnt = 1` satisfies
the split guard (`1 > 1/2`), and the two resulting entries have quantities 0
and 1 — the floor half is not `≥ 1`. -/
theorem C6_cex :
    1 < 2 * pOne.qty ∧ (splitter 1 [pOne]).map Part.qty = [0, 1] :=
  ⟨by decide, rfl⟩

/-! ### C1: which parts the Splitter examines -/

/-- C1 counterexample: among 39 distinct parts of quantity 20 with `cnt = 38`,
the 39th part is not among the top-`cnt` candidates, its quantity 20 exceeds
`cnt / 2 = 19`, and the Splitter nevertheless halves it and appends a
duplicate entry for its type — two entries of quantity 10 instead of the
untouched original. -/
theorem C1_cex :
    mkP 38 ∉ specCandidates colC1 38 ∧
    38 < 2 * (mkP 38).qty ∧
    (splitter 38 colC1).filter (fun q => q.cmb == (mkP 38).cmb) =
      [⟨"D38", "0", "0", "0", "k38", 10⟩, ⟨"D38", "0", "0", "0", "k38", 10⟩] :=
  ⟨by decide, by decide, by decide⟩

/-! ### C5: feeder numbers written to the feeder-list CSV -/

/-- C5, evaluating the code at the failing input: after the optimizer swaps
rows wholesale (feeder numbers included), the feeder column written to the
CSV for `bomLinesC5` is `[19, 21, 20]` — the rows are no longer in slot order
and the 1-indexed feeder numbers are not ascending. -/
theorem C5_code_eval :
    (run_feeder 10 (parse_bom bomLinesC5).1).map (fun fls => fls.map (fun e => e.fdr + 1)) =
      some [19, 21, 20] ∧
    ¬ List.Chain' (fun a b : Nat => a < b) [19, 21, 20] :=
  ⟨rfl, by simp [List.chain'_cons]⟩

/-! ### Helper lemmas about one optimizer step -/

theorem optStep_cases (l : List FeederEntry) (u : Bool) (i : Nat)
    (m : List FeederEntry) (w : Bool) (h : optStep (l, u) i = some (m, w)) :
    w = true ∨ (m = l ∧ w = u ∧ noAdjPair l i) := by
  unfold optStep at h
  split at h
  case h_2 => exact absurd h (by simp)
  case h_1 a b ha hb =>
    split at h
    case isTrue hcmb =>
      left
      obtain ⟨l2, _, hpair⟩ := Option.map_eq_some'.mp h
      exact (congrArg Prod.snd hpair).symm
    case isFalse hcmb =>
      right
      obtain ⟨hm, hw⟩ := Prod.mk.injEq .. ▸ Option.some.inj h
      refine ⟨hm.symm, hw.symm, ?_⟩
      intro a' b' ha' hb'
      rw [ha] at ha'
      rw [hb] at hb'
      rw [← Option.some.inj ha', ← Option.some.inj hb']
      exact hcmb

theorem optPass_sticky : ∀ (is : List Nat) (l l' : List FeederEntry) (u' : Bool),
    optPass (l, true) is = some (l', u') → u' = true
  | [], l, l', u', h => by
    obtain ⟨_, hw⟩ := Prod.mk.injEq .. ▸ Option.some.inj h
    exact hw.symm
  | i :: rest, l, l', u', h => by
    unfold optPass at h
    cases hst : optStep (l, true) i with
    | none => rw [hst] at h; exact absurd h (by simp)
    | some st2 =>
      rw [hst] at h
      obtain ⟨m, w⟩ := st2
      rcases optStep_cases l true i m w hst with hw | ⟨_, hw, _⟩ <;>
        exact optPass_sticky rest m l' u' (hw ▸ h)

theorem optPass_false : ∀ (is : List Nat) (l l' : List FeederEntry) (u : Bool),
    optPass (l, u) is = some (l', false) →
    l' = l ∧ u = false ∧ ∀ i ∈ is, noAdjPair l i
  | [], l, l', u, h => by
    have h2 := Option.some.inj h
    exact ⟨(congrArg Prod.fst h2).symm, congrArg Prod.snd h2, by simp⟩
  | i :: rest, l, l', u, h => by
    unfold optPass at h
    cases hst : optStep (l, u) i with
    | none => rw [hst] at h; exact absurd h (by simp)
    | some st2 =>
      rw [hst] at h
      obtain ⟨m, w⟩ := st2
      rcases optStep_cases l u i m w hst with hw | ⟨hm, hw, hadj⟩
      · exact absurd (optPass_sticky rest m l' false (hw ▸ h)) (by simp)
      · rw [hm, hw] at h
        obtain ⟨h1, h2, h3⟩ := optPass_false rest l l' u h
        exact ⟨h1, h2, fun j hj => by
          rcases List.mem_cons.mp hj with hj | hj
          · exact hj ▸ hadj
          · exact h3 j hj⟩

/-! ### C2: a pass with no change certifies no adjacent collisions -/

/-- C2: whenever a full pass of `optimize_part_list` over indices
`0 .. cnt-2` reports no change, the list is returned untouched and no two
adjacent entries among the first `cnt` share a combined `value|package` key —
so at the fixpoint where `main`'s `while` loop stops, no two slot-adjacent
assignments share a typeKey. -/
theorem C2_pass_false_no_adjacent (bomlist result : List FeederEntry) (cnt : Nat)
    (h : optimize_part_list bomlist cnt = some (result, false)) :
    result = bomlist ∧ ∀ i, i + 1 < cnt → noAdjPair result i := by
  obtain ⟨h1, _, h3⟩ := optPass_false (List.range (cnt - 1)) bomlist result false h
  subst h1
  exact ⟨rfl, fun i hi => h3 i (List.mem_range.mpr (by omega))⟩

/-- Witness for C2: a pass over two entries of distinct types reports no
change, and indeed no adjacent pair shares a key. -/
theorem C2_pass_false_no_adjacent_witness :
    exDistinct = exDistinct ∧ ∀ i, i + 1 < 2 → noAdjPair exDistinct i :=
  C2_pass_false_no_adjacent exDistinct exDistinct 2 rfl

/-! ### C10: the optimizer only reorders -/

theorem cons_set_perm (x y : FeederEntry) : ∀ (t : List FeederEntry) (m : Nat),
    t[m]? = some y → (y :: t.set m x).Perm (x :: t)
  | [], m, h => by simp at h
  | u :: s, 0, h => by
    rw [List.getElem?_cons_zero] at h
    rw [Option.some.inj h]
    exact List.Perm.swap x y s
  | u :: s, m + 1, h => by
    rw [List.getElem?_cons_succ] at h
    exact (List.Perm.swap u y (s.set m x)).trans
      (((cons_set_perm x y s m h).cons u).trans (List.Perm.swap x u s))

theorem set_set_perm : ∀ (l : List FeederEntry) (a b : Nat) (x y : FeederEntry),
    l[a]? = some x → l[b]? = some y → ((l.set a y).set b x).Perm l
  | [], a, b, x, y, ha, hb => by simp at ha
  | z :: t, 0, 0, x, y, ha, hb => by
    rw [List.getElem?_cons_zero] at ha hb
    rw [← Option.some.inj ha, ← Option.some.inj hb]
    simp
  | z :: t, 0, b + 1, x, y, ha, hb => by
    rw [List.getElem?_cons_zero] at ha
    rw [List.getElem?_cons_succ] at hb
    rw [← Option.some.inj ha]
    exact cons_set_perm z y t b hb
  | z :: t, a + 1, 0, x, y, ha, hb => by
    rw [List.getElem?_cons_zero] at hb
    rw [List.getElem?_cons_succ] at ha
    rw [← Option.some.inj hb]
    exact cons_set_perm z x t a ha
  | z :: t, a + 1, b + 1, x, y, ha, hb => by
    rw [List.getElem?_cons_succ] at ha hb
    exact (set_set_perm t a b x y ha hb).cons z

theorem swapIdx_perm (l l2 : List FeederEntry) (a b : Nat)
    (h : swapIdx l a b = some l2) : l2.Perm l := by
  unfold swapIdx at h
  split at h
  case h_2 => exact absurd h (by simp)
  case h_1 x y hx hy =>
    rw [← Option.some.inj h]
    exact set_set_perm l a b x y hx hy

theorem optStep_perm (st : List FeederEntry × Bool) (i : Nat)
    (st2 : List FeederEntry × Bool) (h : optStep st i = some st2) :
    st2.1.Perm st.1 := by
  unfold optStep at h
  split at h
  case h_2 => exact absurd h (by simp)
  case h_1 a b ha hb =>
    split at h
    case isTrue hcmb =>
      obtain ⟨l2, hl2, hpair⟩ := Option.map_eq_some'.mp h
      have hfst : st2.1 = l2 := congrArg Prod.fst hpair.symm
      rw [hfst]
      by_cases h17 : i ≤ 17
      · rw [if_pos h17] at hl2
        by_cases h0 : i = 0
        · rw [if_pos h0] at hl2
          exact swapIdx_perm _ _ _ _ hl2
        · rw [if_neg h0] at hl2
          exact swapIdx_perm _ _ _ _ hl2
      · rw [if_neg h17] at hl2
        by_cases h36 : i = 36
        · rw [if_pos h36] at hl2
          exact swapIdx_perm _ _ _ _ hl2
        · rw [if_neg h36] at hl2
          exact swapIdx_perm _ _ _ _ hl2
    case isFalse hcmb =>
      cases Option.some.inj h
      exact List.Perm.refl _

theorem optPass_perm : ∀ (is : List Nat) (st : List FeederEntry × Bool)
    (l' : List FeederEntry) (u' : Bool),
    optPass st is = some (l', u') → l'.Perm st.1
  | [], st, l', u', h => by
    cases Option.some.inj h
    exact List.Perm.refl _
  | i :: rest, st, l', u', h => by
    unfold optPass at h
    cases hst : optStep st i with
    | none => rw [hst] at h; exact absurd h (by simp)
    | some st2 =>
      rw [hst] at h
      exact (optPass_perm rest st2 l' u' h).trans (optStep_perm st i st2 hst)

/-- C10: a full optimizer pass only reorders the feeder list — the output is
a permutation of the input, entry for entry, so no field of any entry (part
data or assigned feeder number) is modified and no part is re-assigned to a
different record. -/
theorem C10_optimizer_only_reorders (bomlist result : List FeederEntry)
    (cnt : Nat) (changed : Bool)
    (h : optimize_part_list bomlist cnt = some (result, changed)) :
    result.Perm bomlist :=
  optPass_perm (List.range (cnt - 1)) (bomlist, false) result changed h

/-- Witness for C10 at a concrete two-entry list. -/
theorem C10_optimizer_only_reorders_witness : exDistinct.Perm exDistinct :=
  C10_optimizer_only_reorders exDistinct exDistinct 2 false rfl

/-! ### C4 amended: when every access of `optimize_part_list` is in bounds -/

theorem swapIdx_isSome (l : List FeederEntry) (a b : Nat)
    (ha : a < l.length) (hb : b < l.length) :
    ∃ l2, swapIdx l a b = some l2 ∧ l2.length = l.length := by
  unfold swapIdx
  rw [List.getElem?_eq_getElem ha, List.getElem?_eq_getElem hb]
  exact ⟨_, rfl, by simp⟩

theorem optStep_safe (l : List FeederEntry) (u : Bool) (i cnt : Nat)
    (hlen : l.length = cnt) (hi : i + 1 < cnt) (hs : stepInBounds cnt i) :
    ∃ m w, optStep (l, u) i = some (m, w) ∧ m.length = cnt := by
  have hi0 : i < l.length := by omega
  have hi1 : i + 1 < l.length := by omega
  obtain ⟨a, ha⟩ : ∃ a, l[i]? = some a := ⟨_, List.getElem?_eq_getElem hi0⟩
  obtain ⟨b, hb⟩ : ∃ b, l[i+1]? = some b := ⟨_, List.getElem?_eq_getElem hi1⟩
  unfold optStep
  rw [ha, hb]
  dsimp only []
  by_cases hcmb : a.part.cmb = b.part.cmb
  · rw [if_pos hcmb]
    by_cases h17 : i ≤ 17
    · rw [if_pos h17]
      by_cases h0 : i = 0
      · rw [if_pos h0]
        obtain ⟨l2, hl2, hlen2⟩ :=
          swapIdx_isSome l (i+1) (i+2) hi1 (by have := hs.1 h17 h0; omega)
        exact ⟨l2, true, by rw [hl2]; rfl, by omega⟩
      · rw [if_neg h0]
        obtain ⟨l2, hl2, hlen2⟩ := swapIdx_isSome l (i-1) i (by omega) hi0
        exact ⟨l2, true, by rw [hl2]; rfl, by omega⟩
    · rw [if_neg h17]
      by_cases h36 : i = 36
      · rw [if_pos h36]
        obtain ⟨l2, hl2, hlen2⟩ := swapIdx_isSome l (i-1) i (by omega) hi0
        exact ⟨l2, true, by rw [hl2]; rfl, by omega⟩
      · rw [if_neg h36]
        obtain ⟨l2, hl2, hlen2⟩ :=
          swapIdx_isSome l (i+1) (i+2) hi1 (by have := hs.2 (by omega) h36; omega)
        exact ⟨l2, true, by rw [hl2]; rfl, by omega⟩
  · rw [if_neg hcmb]
    exact ⟨l, u, rfl, hlen⟩

theorem optPass_safe : ∀ (is : List Nat) (l : List FeederEntry) (u : Bool) (cnt : Nat),
    l.length = cnt → (∀ i ∈ is, i + 1 < cnt ∧ stepInBounds cnt i) →
    ∃ l2 u2, optPass (l, u) is = some (l2, u2)
  | [], l, u, cnt, hlen, his => ⟨l, u, rfl⟩
  | i :: rest, l, u, cnt, hlen, his => by
    obtain ⟨hi, hs⟩ := his i (List.mem_cons_self i rest)
    obtain ⟨m, w, hstep, hmlen⟩ := optStep_safe l u i cnt hlen hi hs
    obtain ⟨l2, u2, hrest⟩ :=
      optPass_safe rest m w cnt hmlen (fun j hj => his j (List.mem_cons_of_mem i hj))
    exact ⟨l2, u2, by unfold optPass; rw [hstep]; exact hrest⟩

/-- C4 amended: for every list whose length equals `cnt`, every index access
performed by `optimize_part_list` stays within `[0, cnt-1]` — so no
`IndexError` is raised — provided `cnt ≤ 1`, `3 ≤ cnt ≤ 19`, or `cnt = 38`.
(The counterexample `C4_cex` shows the bound fails at `cnt = 2`, and a
collision at `i = cnt - 2` likewise reaches index `cnt` for
`20 ≤ cnt ≤ 37`.) -/
theorem C4_amended_in_bounds (bomlist : List FeederEntry) (cnt : Nat)
    (hlen : bomlist.length = cnt)
    (hcnt : cnt ≤ 1 ∨ (3 ≤ cnt ∧ cnt ≤ 19) ∨ cnt = 38) :
    (optimize_part_list bomlist cnt).isSome = true := by
  have his : ∀ i ∈ List.range (cnt - 1), i + 1 < cnt ∧ stepInBounds cnt i := by
    intro i hi
    have hir : i < cnt - 1 := List.mem_range.mp hi
    refine ⟨by omega, ?_, ?_⟩
    · intro _ h0
      rcases hcnt with h | h | h <;> omega
    · intro h17 h36
      rcases hcnt with h | h | h <;> omega
  obtain ⟨l2, u2, h⟩ := optPass_safe (List.range (cnt - 1)) bomlist false cnt hlen his
  unfold optimize_part_list
  rw [h]
  rfl

/-- Witness for C4 amended: a three-entry list with `cnt = 3` runs with all
accesses in bounds. -/
theorem C4_amended_in_bounds_witness :
    (optimize_part_list exC3 3).isSome = true :=
  C4_amended_in_bounds exC3 3 rfl (Or.inr (Or.inl (by omega)))

/-! ### The Splitter's effect on each part type -/

theorem splitPart_fst_cmb (cnt : Nat) (q : Part) : (splitPart cnt q).1.cmb = q.cmb := by
  unfold splitPart
  split <;> rfl

theorem splitPart_snd_cmb (cnt : Nat) (q r : Part)
    (h : (splitPart cnt q).2 = some r) : r.cmb = q.cmb := by
  unfold splitPart at h
  split at h
  · rw [← Option.some.inj h]
  · exact absurd h (by simp)

theorem splitter_filter_nomatch (cnt : Nat) (k : String) : ∀ col : List Part,
    k ∉ col.map Part.cmb →
    (col.map (fun p => (splitPart cnt p).1)).filter (fun q => q.cmb == k) = [] ∧
    (col.filterMap (fun p => (splitPart cnt p).2)).filter (fun q => q.cmb == k) = []
  | [], _ => ⟨rfl, rfl⟩
  | p :: rest, h => by
    simp only [List.map_cons, List.mem_cons, not_or] at h
    obtain ⟨hk1, hk2⟩ := h
    obtain ⟨ih1, ih2⟩ := splitter_filter_nomatch cnt k rest hk2
    constructor
    · rw [List.map_cons, List.filter_cons_of_neg, ih1]
      rw [splitPart_fst_cmb]
      intro hb
      exact hk1 (beq_iff_eq.mp hb).symm
    · rw [List.filterMap_cons]
      cases hs : (splitPart cnt p).2 with
      | none => exact ih2
      | some r =>
        rw [List.filter_cons_of_neg, ih2]
        rw [splitPart_snd_cmb cnt p r hs]
        intro hb
        exact hk1 (beq_iff_eq.mp hb).symm

theorem splitter_filter_map_part (cnt : Nat) (p : Part) : ∀ col : List Part,
    p ∈ col → (col.map Part.cmb).Nodup →
    (col.map (fun q => (splitPart cnt q).1)).filter (fun q => q.cmb == p.cmb) =
      [(splitPart cnt p).1]
  | [], hmem, _ => absurd hmem (List.not_mem_nil p)
  | q :: rest, hmem, hnd => by
    rw [List.map_cons, List.nodup_cons] at hnd
    obtain ⟨hq, hndr⟩ := hnd
    rcases List.mem_cons.mp hmem with rfl | hp
    · rw [List.map_cons, List.filter_cons_of_pos
        (by rw [splitPart_fst_cmb]; exact beq_self_eq_true p.cmb),
        (splitter_filter_nomatch cnt p.cmb rest hq).1]
    · rw [List.map_cons, List.filter_cons_of_neg, splitter_filter_map_part cnt p rest hp hndr]
      rw [splitPart_fst_cmb]
      intro hb
      exact hq (by rw [beq_iff_eq.mp hb]; exact List.mem_map_of_mem Part.cmb hp)

theorem splitter_filter_adders_part (cnt : Nat) (p : Part) : ∀ col : List Part,
    p ∈ col → (col.map Part.cmb).Nodup →
    (col.filterMap (fun q => (splitPart cnt q).2)).filter (fun q => q.cmb == p.cmb) =
      ((splitPart cnt p).2).toList
  | [], hmem, _ => absurd hmem (List.not_mem_nil p)
  | q :: rest, hmem, hnd => by
    rw [List.map_cons, List.nodup_cons] at hnd
    obtain ⟨hq, hndr⟩ := hnd
    rcases List.mem_cons.mp hmem with rfl | hp
    · rw [List.filterMap_cons]
      cases hs : (splitPart cnt p).2 with
      | none => rw [(splitter_filter_nomatch cnt p.cmb rest hq).2]; rfl
      | some r =>
        rw [List.filter_cons_of_pos
          (by rw [splitPart_snd_cmb cnt p r hs]; exact beq_self_eq_true p.cmb),
          (splitter_filter_nomatch cnt p.cmb rest hq).2]
        rfl
    · rw [List.filterMap_cons]
      have htail := splitter_filter_adders_part cnt p rest hp hndr
      cases hs : (splitPart cnt q).2 with
      | none => exact htail
      | some r =>
        rw [List.filter_cons_of_neg, htail]
        rw [splitPart_snd_cmb cnt q r hs]
        intro hb
        exact hq (by rw [beq_iff_eq.mp hb]; exact List.mem_map_of_mem Part.cmb hp)

/-- The rows a given part type contributes to the Splitter's output: its
(possibly halved) original entry, followed by the appended remainder entry
exactly when the split guard `qty > cnt/2` held. -/
theorem splitter_filter_eq (cnt : Nat) (p : Part) (col : List Part)
    (hmem : p ∈ col) (hkeys : (col.map Part.cmb).Nodup) :
    (splitter cnt col).filter (fun q => q.cmb == p.cmb) =
      (if cnt < 2 * p.qty then
        [⟨p.des, p.x, p.y, p.a, p.cmb, p.qty / 2⟩,
         ⟨p.des, p.x, p.y, p.a, p.cmb, p.qty - p.qty / 2⟩]
       else [p]) := by
  unfold splitter
  rw [List.filter_append, splitter_filter_map_part cnt p col hmem hkeys,
    splitter_filter_adders_part cnt p col hmem hkeys]
  unfold splitPart
  split <;> rfl

/-! ### C1 amended: the Splitter examines the full aggregated set -/

/-- C1 amended: the Splitter's behaviour for a part depends only on the
threshold `quantity > cnt/2`, not on membership in the top-`cnt` candidate
set (it loops over the full aggregated list): a part at or below the
threshold keeps its single unchanged entry, and a part above it — wherever it
ranks — is halved and receives a duplicate entry. -/
theorem C1_amended_splits_full_set (cnt : Nat) (col : List Part) (p : Part)
    (hmem : p ∈ col) (hkeys : (col.map Part.cmb).Nodup) :
    (2 * p.qty ≤ cnt →
      (splitter cnt col).filter (fun q => q.cmb == p.cmb) = [p]) ∧
    (cnt < 2 * p.qty →
      (splitter cnt col).filter (fun q => q.cmb == p.cmb) =
        [⟨p.des, p.x, p.y, p.a, p.cmb, p.qty / 2⟩,
         ⟨p.des, p.x, p.y, p.a, p.cmb, p.qty - p.qty / 2⟩]) := by
  have h := splitter_filter_eq cnt p col hmem hkeys
  constructor
  · intro hle
    rw [h, if_neg (by omega)]
  · intro hlt
    rw [h, if_pos hlt]

/-- Witness for C1 amended at a concrete two-part list with `cnt = 2`. -/
theorem C1_amended_splits_full_set_witness :
    (2 * pW2.qty ≤ 2 →
      (splitter 2 colW).filter (fun q => q.cmb == pW2.cmb) = [pW2]) ∧
    (2 < 2 * pW2.qty →
      (splitter 2 colW).filter (fun q => q.cmb == pW2.cmb) =
        [⟨pW2.des, pW2.x, pW2.y, pW2.a, pW2.cmb, pW2.qty / 2⟩,
         ⟨pW2.des, pW2.x, pW2.y, pW2.a, pW2.cmb, pW2.qty - pW2.qty / 2⟩]) :=
  C1_amended_splits_full_set 2 colW pW2 (by decide) (by decide)

/-! ### C6 amended: quantities produced by a split -/

/-- C6 amended: every part whose quantity exceeds `cnt/2` ends with exactly
two entries for its typeKey, of quantities `floor(q/2)` and `q - floor(q/2)`;
their sum is `q`; both are `≥ 1` whenever `q ≥ 2` (for `q = 1`, reachable
only when `cnt ≤ 1`, the halves are 0 and 1); and for odd `q` the appended
remainder entry is the strictly larger one. -/
theorem C6_amended_split_quantities (cnt : Nat) (col : List Part) (p : Part)
    (hmem : p ∈ col) (hkeys : (col.map Part.cmb).Nodup) (hq : cnt < 2 * p.qty) :
    (splitter cnt col).filter (fun q => q.cmb == p.cmb) =
      [⟨p.des, p.x, p.y, p.a, p.cmb, p.qty / 2⟩,
       ⟨p.des, p.x, p.y, p.a, p.cmb, p.qty - p.qty / 2⟩] ∧
    p.qty / 2 + (p.qty - p.qty / 2) = p.qty ∧
    (2 ≤ p.qty → 1 ≤ p.qty / 2 ∧ 1 ≤ p.qty - p.qty / 2) ∧
    (p.qty % 2 = 1 → p.qty / 2 < p.qty - p.qty / 2) := by
  refine ⟨?_, by omega, by omega, by omega⟩
  rw [splitter_filter_eq cnt p col hmem hkeys, if_pos hq]

/-- Witness for C6 amended: the quantity-5 part with `cnt = 2` splits into
entries of quantities 2 and 3. -/
theorem C6_amended_split_quantities_witness :
    (splitter 2 colW).filter (fun q => q.cmb == pW1.cmb) =
      [⟨pW1.des, pW1.x, pW1.y, pW1.a, pW1.cmb, pW1.qty / 2⟩,
       ⟨pW1.des, pW1.x, pW1.y, pW1.a, pW1.cmb, pW1.qty - pW1.qty / 2⟩] ∧
    pW1.qty / 2 + (pW1.qty - pW1.qty / 2) = pW1.qty ∧
    (2 ≤ pW1.qty → 1 ≤ pW1.qty / 2 ∧ 1 ≤ pW1.qty - pW1.qty / 2) ∧
    (pW1.qty % 2 = 1 → pW1.qty / 2 < pW1.qty - pW1.qty / 2) :=
  C6_amended_split_quantities 2 colW pW1 (by decide) (by decide) (by decide)

/-! ### C7: aggregation is conservative and one-entry-per-type -/

theorem bumpQty_sum (k : String) : ∀ l : List Part,
    l.any (fun c => c.cmb == k) = true → sumQty (bumpQty k l) = sumQty l + 1
  | [], h => by simp at h
  | c :: rest, h => by
    unfold bumpQty
    by_cases hc : c.cmb = k
    · rw [if_pos hc]
      simp only [sumQty, List.map_cons, List.sum_cons]
      omega
    · rw [if_neg hc]
      have h2 : rest.any (fun c => c.cmb == k) = true := by
        rcases List.any_eq_true.mp h with ⟨x, hx, hxk⟩
        rcases List.mem_cons.mp hx with rfl | hx2
        · exact absurd (beq_iff_eq.mp hxk) hc
        · exact List.any_eq_true.mpr ⟨x, hx2, hxk⟩
      have := bumpQty_sum k rest h2
      simp only [sumQty, List.map_cons, List.sum_cons] at this ⊢
      omega

theorem bumpQty_cmb (k : String) : ∀ l : List Part,
    (bumpQty k l).map Part.cmb = l.map Part.cmb
  | [] => rfl
  | c :: rest => by
    unfold bumpQty
    by_cases hc : c.cmb = k
    · rw [if_pos hc]
      simp
    · rw [if_neg hc, List.map_cons, List.map_cons, bumpQty_cmb k rest]

theorem bumpQty_pos (k : String) : ∀ l : List Part,
    (∀ p ∈ l, 1 ≤ p.qty) → ∀ p ∈ bumpQty k l, 1 ≤ p.qty
  | [], _, p, hp => absurd hp (List.not_mem_nil p)
  | c :: rest, h, p, hp => by
    unfold bumpQty at hp
    by_cases hc : c.cmb = k
    · rw [if_pos hc] at hp
      rcases List.mem_cons.mp hp with rfl | hp2
      · have := h c (List.mem_cons_self c rest)
        simp only []
        omega
      · exact h p (List.mem_cons_of_mem c hp2)
    · rw [if_neg hc] at hp
      rcases List.mem_cons.mp hp with rfl | hp2
      · exact h p (List.mem_cons_self p rest)
      · exact bumpQty_pos k rest (fun q hq => h q (List.mem_cons_of_mem c hq)) p hp2

theorem addPart_sum (acc : List Part) (e : BomEntry) :
    sumQty (addPart acc e) = sumQty acc + 1 := by
  unfold addPart
  by_cases h : acc.any (fun c => c.cmb == e.cmb) = true
  · rw [if_pos h]
    exact bumpQty_sum e.cmb acc h
  · rw [if_neg h]
    simp [sumQty]

theorem mem_keys_iff_any (acc : List Part) (k : String) :
    k ∈ acc.map Part.cmb ↔ acc.any (fun c => c.cmb == k) = true := by
  rw [List.any_eq_true, List.mem_map]
  constructor
  · rintro ⟨c, hc, rfl⟩
    exact ⟨c, hc, beq_self_eq_true c.cmb⟩
  · rintro ⟨c, hc, hk⟩
    exact ⟨c, hc, beq_iff_eq.mp hk⟩

theorem addPart_cmb (acc : List Part) (e : BomEntry) :
    (addPart acc e).map Part.cmb = stepKey (acc.map Part.cmb) e.cmb := by
  unfold addPart stepKey
  by_cases h : acc.any (fun c => c.cmb == e.cmb) = true
  · rw [if_pos h, bumpQty_cmb, if_pos ((mem_keys_iff_any acc e.cmb).mpr h)]
  · rw [if_neg h, if_neg (fun hm => h ((mem_keys_iff_any acc e.cmb).mp hm))]
    simp

theorem addPart_pos (acc : List Part) (e : BomEntry)
    (h : ∀ p ∈ acc, 1 ≤ p.qty) : ∀ p ∈ addPart acc e, 1 ≤ p.qty := by
  unfold addPart
  by_cases ha : acc.any (fun c => c.cmb == e.cmb) = true
  · rw [if_pos ha]
    exact bumpQty_pos e.cmb acc h
  · rw [if_neg ha]
    intro p hp
    rcases List.mem_append.mp hp with hp2 | hp2
    · exact h p hp2
    · rcases List.mem_singleton.mp hp2 with rfl
      exact Nat.le_refl 1

theorem ccl_sum_aux : ∀ (bl : List BomEntry) (acc : List Part),
    sumQty (bl.foldl addPart acc) = sumQty acc + bl.length
  | [], acc => by simp
  | e :: bl, acc => by
    rw [List.foldl_cons, ccl_sum_aux bl (addPart acc e), addPart_sum, List.length_cons]
    omega

theorem ccl_keys_aux : ∀ (bl : List BomEntry) (acc : List Part),
    (bl.foldl addPart acc).map Part.cmb =
      (bl.map BomEntry.cmb).foldl stepKey (acc.map Part.cmb)
  | [], acc => rfl
  | e :: bl, acc => by
    rw [List.foldl_cons, List.map_cons, List.foldl_cons,
      ccl_keys_aux bl (addPart acc e), addPart_cmb]

theorem foldl_stepKey_nodup : ∀ (ks : List String) (acc : List String),
    acc.Nodup → (ks.foldl stepKey acc).Nodup
  | [], acc, h => h
  | k :: ks, acc, h => by
    rw [List.foldl_cons]
    apply foldl_stepKey_nodup ks
    unfold stepKey
    by_cases hk : k ∈ acc
    · rw [if_pos hk]
      exact h
    · rw [if_neg hk]
      exact (List.perm_append_singleton k acc).nodup_iff.mpr (List.nodup_cons.mpr ⟨hk, h⟩)

theorem ccl_pos_aux : ∀ (bl : List BomEntry) (acc : List Part),
    (∀ p ∈ acc, 1 ≤ p.qty) → ∀ p ∈ bl.foldl addPart acc, 1 ≤ p.qty
  | [], acc, h => h
  | e :: bl, acc, h => by
    rw [List.foldl_cons]
    exact ccl_pos_aux bl (addPart acc e) (addPart_pos acc e h)

/-- C7: aggregation conserves quantity — the quantities of the counted parts
sum to the number of (already filtered) BOM records — and produces exactly one
entry per distinct combined `value|package` key, listed in first-occurrence
order, each with quantity at least 1. -/
theorem C7_aggregation (bomlist : List BomEntry) :
    sumQty (create_component_list bomlist) = bomlist.length ∧
    ((create_component_list bomlist).map Part.cmb).Nodup ∧
    (create_component_list bomlist).map Part.cmb =
      firstOccurrences (bomlist.map BomEntry.cmb) ∧
    ∀ p ∈ create_component_list bomlist, 1 ≤ p.qty := by
  refine ⟨?_, ?_, ?_, ?_⟩
  · have h := ccl_sum_aux bomlist []
    simpa [create_component_list, sumQty] using h
  · rw [create_component_list, ccl_keys_aux bomlist []]
    exact foldl_stepKey_nodup _ _ List.nodup_nil
  · rw [create_component_list, ccl_keys_aux bomlist []]
    rfl
  · exact ccl_pos_aux bomlist [] (by simp)

/-- Witness for C7 at a three-record BOM with one repeated type. -/
theorem C7_aggregation_witness :
    sumQty (create_component_list bomW7) = 3 ∧
    ((create_component_list bomW7).map Part.cmb).Nodup ∧
    (create_component_list bomW7).map Part.cmb =
      firstOccurrences (bomW7.map BomEntry.cmb) ∧
    ∀ p ∈ create_component_list bomW7, 1 ≤ p.qty :=
  C7_aggregation bomW7

/-! ### C9: behaviour on unreadable input -/

/-- C9 counterexample: with a malformed second line, ingestion reports the
error but returns the record parsed from the first line, and the feeder-list
pipeline still produces an output from that partial data — the run is not
aborted. -/
theorem C9_cex :
    parse_bom [goodLine, badLine] = ([⟨"R1", "0", "0", "0", "10k|0603"⟩], true) ∧
    (run_feeder 5 (parse_bom [goodLine, badLine]).1).isSome = true :=
  ⟨rfl, rfl⟩

/-- C9 amended: when a malformed line (fewer than six tokens, not filtered)
is reached, the lines before it are parsed and kept, the rest of the file is
skipped, the error flag is set, and execution continues with that partial
BOM. -/
theorem C9_amended_continue : ∀ (pre : List String) (bad : String) (post : List String),
    (∀ l ∈ pre, isFiltered l = true ∨ (parseLine l).isSome = true) →
    isFiltered bad = false → parseLine bad = none →
    parse_bom (pre ++ bad :: post) =
      (pre.filterMap (fun l => if isFiltered l then none else parseLine l), true)
  | [], bad, post, _, hbad1, hbad2 => by
    rw [List.nil_append]
    unfold parse_bom
    rw [if_neg (by rw [hbad1]; exact Bool.false_ne_true), hbad2]
    rfl
  | l :: pre, bad, post, hpre, hbad1, hbad2 => by
    have ih := C9_amended_continue pre bad post
      (fun j hj => hpre j (List.mem_cons_of_mem l hj)) hbad1 hbad2
    rw [List.cons_append]
    unfold parse_bom
    rcases hpre l (List.mem_cons_self l pre) with hf | hp
    · rw [if_pos hf, ih, List.filterMap_cons]
      rw [if_pos hf]
    · rcases Option.isSome_iff_exists.mp hp with ⟨e, he⟩
      by_cases hf : isFiltered l = true
      · rw [if_pos hf, ih, List.filterMap_cons, if_pos hf]
      · rw [if_neg hf, he, ih, List.filterMap_cons, if_neg hf, he]

/-- Witness for C9 amended: one good line followed by a malformed one. -/
theorem C9_amended_continue_witness :
    parse_bom ([goodLine] ++ badLine :: []) =
      ([goodLine].filterMap (fun l => if isFiltered l then none else parseLine l), true) :=
  C9_amended_continue [goodLine] badLine [] (by decide) (by decide) (by decide)

end Bomsort
